import Mathlib

/-!
Shallow embedding of `src/summarizer.py` (AI-VideoSummarizer).

Python strings are modelled as Lean `String` (a sequence of characters);
`len` is `String.length`.  Python's `str.splitlines` is modelled with its
full set of line terminators (`\n`, `\r`, the two-character `\r\n`, `\v`,
`\f`, `\x1c`, `\x1d`, `\x1e`, `\x85`, U+2028, U+2029); on texts whose
only terminator is `\n` — every rendered transcript is such a text — it
coincides with plain `\n`-splitting.  Python's `int` argument `max_chars`
is modelled as `Int` so that non-positive configuration values are
expressible.  Python `float` seconds are modelled as `ℚ` (exact
rationals); `int(...)` truncation toward zero, float floor-division `//`
and float modulo `%` are modelled exactly.

The external OpenAI chat-completion collaborator is modelled as an oracle
function from a request record to `Except String String`: `.error msg`
models a raised exception whose message is `msg`, `.ok text` models a
successful response text.  Python's `try/except` around the chunked
pipeline is modelled by running the pipeline body in the `Except` monad and
matching on the result.
-/

set_option maxHeartbeats 1600000

namespace Summarizer

/-! ## String primitives: splitlines and join -/

/-- Split a character list at every `'\n'`, keeping empty segments.
`splitNl cs` always returns at least one segment and
`joinNl (splitNl cs) = cs`.  On texts whose only line-terminator
character is `'\n'` this coincides with Python's line splitting
(`splitLines_eq_splitNl` below). -/
def splitNl : List Char → List (List Char)
  | [] => [[]]
  | c :: rest =>
    if c = '\n' then [] :: splitNl rest
    else
      match splitNl rest with
      | [] => [[c]]
      | l :: ls => (c :: l) :: ls

/-- Join character-list segments with `'\n'`; inverse of `splitNl`. -/
def joinNl : List (List Char) → List Char
  | [] => []
  | [l] => l
  | l :: ls => l ++ '\n' :: joinNl ls

/-- The single-character line terminators recognized by Python's
`str.splitlines`: `\n`, `\r`, `\v` (`\x0b`), `\f` (`\x0c`), `\x1c`,
`\x1d`, `\x1e`, `\x85`, U+2028, U+2029. -/
def isLineBreak (c : Char) : Bool :=
  c == '\n' || c == '\r' || c == '\x0b' || c == '\x0c' || c == '\x1c' ||
    c == '\x1d' || c == '\x1e' || c == '\x85' || c == '\u2028' ||
    c == '\u2029'

/-- Split a character list at every Python line boundary, keeping empty
segments: at each single-character terminator, with the two-character
sequence `'\r'` `'\n'` consumed as one boundary.  Always returns at least
one segment; the final segment is the residue after the last boundary. -/
def splitLines : List Char → List (List Char)
  | [] => [[]]
  | [c] => if isLineBreak c then [[], []] else [[c]]
  | c1 :: c2 :: rest =>
    if c1 = '\r' ∧ c2 = '\n' then [] :: splitLines rest
    else if isLineBreak c1 then [] :: splitLines (c2 :: rest)
    else
      match splitLines (c2 :: rest) with
      | [] => [[c1]]
      | l :: ls => (c1 :: l) :: ls

/-- Model of Python `text.splitlines()`: split at every line boundary and
do not produce a final empty line for a trailing terminator
(`"a\n".splitlines() == ["a"]`, `"a\rb".splitlines() == ["a", "b"]`,
`"".splitlines() == []`). -/
def pySplitlines (s : String) : List String :=
  let parts := splitLines s.data
  (if parts.getLast? = some [] then parts.dropLast else parts).map
    fun cs => String.mk cs

/-- Model of Python `sep.join(l)`. -/
def pyJoin (sep : String) : List String → String
  | [] => ""
  | l :: ls => ls.foldl (fun acc x => acc ++ sep ++ x) l

/-! ## `chunk_text_by_chars` (src/summarizer.py lines 96-109) -/

/-- One iteration of the `for line in text.splitlines()` loop body of
`chunk_text_by_chars`: state is `(chunks, cur, cur_len)`.  `L = len(line)+1`;
if `cur_len + L > max_chars and cur`, the buffer is flushed
(`chunks.append("\n".join(cur)); cur, cur_len = [], 0`) and then the line is
appended (`cur.append(line); cur_len += L`). -/
def chunkStep (max_chars : Int) :
    List String × List String × Int → String → List String × List String × Int
  | (chunks, cur, cur_len), line =>
    let L : Int := (line.length : Int) + 1
    if cur_len + L > max_chars ∧ cur ≠ [] then
      (chunks ++ [pyJoin "\n" cur], [line], L)
    else
      (chunks, cur ++ [line], cur_len + L)

/-- Embedding of `chunk_text_by_chars(text, max_chars)`
(src/summarizer.py lines 96-109). -/
def chunk_text_by_chars (text : String) (max_chars : Int) : List String :=
  if (text.length : Int) ≤ max_chars then [text]
  else
    match (pySplitlines text).foldl (chunkStep max_chars) ([], [], 0) with
    | (chunks, cur, _) =>
      if cur ≠ [] then chunks ++ [pyJoin "\n" cur] else chunks

/-! ## Basic lemmas about the string primitives -/

theorem splitNl_ne_nil (cs : List Char) : splitNl cs ≠ [] := by
  cases cs with
  | nil => simp [splitNl]
  | cons c rest =>
    simp only [splitNl]
    split
    · simp
    · split <;> simp

theorem joinNl_splitNl (cs : List Char) : joinNl (splitNl cs) = cs := by
  induction cs with
  | nil => rfl
  | cons c rest ih =>
    simp only [splitNl]
    split
    · rename_i hc
      subst hc
      cases h : splitNl rest with
      | nil => exact absurd h (splitNl_ne_nil rest)
      | cons l ls =>
        rw [h] at ih
        simpa [joinNl] using ih
    · cases h : splitNl rest with
      | nil => exact absurd h (splitNl_ne_nil rest)
      | cons l ls =>
        rw [h] at ih
        cases ls with
        | nil => simpa [joinNl] using ih
        | cons l2 ls2 => simpa [joinNl] using ih

theorem splitNl_no_newline (cs : List Char) :
    ∀ l ∈ splitNl cs, '\n' ∉ l := by
  induction cs with
  | nil => simp [splitNl]
  | cons c rest ih =>
    simp only [splitNl]
    split
    · intro l hl
      rcases List.mem_cons.mp hl with h | h
      · subst h; simp
      · exact ih l h
    · rename_i hc
      cases h : splitNl rest with
      | nil => exact absurd h (splitNl_ne_nil rest)
      | cons g gs =>
        intro l hl
        rcases List.mem_cons.mp hl with h' | h'
        · subst h'
          intro hmem
          rcases List.mem_cons.mp hmem with h'' | h''
          · exact hc h''.symm
          · exact ih g (h ▸ List.mem_cons_self g gs) h''
        · exact ih l (h ▸ List.mem_cons_of_mem g h')

theorem splitNl_eq_singleton_nil {cs : List Char}
    (h : splitNl cs = [[]]) : cs = [] := by
  have := joinNl_splitNl cs
  rw [h] at this
  simpa [joinNl] using this.symm

/-- If `cs` is nonempty and does not end with a newline, `splitNl cs` does
not end with an empty segment. -/
theorem splitNl_getLast?_ne_nil {cs : List Char} (h0 : cs ≠ [])
    (h1 : cs.getLast? ≠ some '\n') : (splitNl cs).getLast? ≠ some [] := by
  induction cs with
  | nil => exact absurd rfl h0
  | cons c rest ih =>
    by_cases hr : rest = []
    · subst hr
      have hc : c ≠ '\n' := by
        intro h; exact h1 (by simp [h])
      simp [splitNl, hc]
    · have hcons : (c :: rest).getLast? = rest.getLast? := by
        cases rest with
        | nil => exact absurd rfl hr
        | cons d ds => simp [List.getLast?_cons_cons]
      have hlast : rest.getLast? ≠ some '\n' := by
        intro h
        exact h1 (by rwa [hcons])
      have ihr := ih hr hlast
      simp only [splitNl]
      split
      · cases h : splitNl rest with
        | nil => exact absurd h (splitNl_ne_nil rest)
        | cons g gs =>
          rw [h] at ihr
          simpa [List.getLast?_cons_cons] using ihr
      · cases h : splitNl rest with
        | nil => exact absurd h (splitNl_ne_nil rest)
        | cons g gs =>
          rw [h] at ihr
          cases gs with
          | nil => simp
          | cons g2 gs2 => simpa [List.getLast?_cons_cons] using ihr

theorem data_append (a b : String) : (a ++ b).data = a.data ++ b.data := by
  cases a; cases b; rfl

theorem length_append_str (a b : String) :
    (a ++ b).length = a.length + b.length := by
  show (a ++ b).data.length = a.data.length + b.data.length
  rw [data_append, List.length_append]

theorem splitLines_ne_nil : ∀ cs : List Char, splitLines cs ≠ []
  | [] => by simp [splitLines]
  | [c] => by
    simp only [splitLines]
    split <;> simp
  | c1 :: c2 :: rest => by
    simp only [splitLines]
    split
    · simp
    · split
      · simp
      · split <;> simp

/-- Every segment produced by `splitLines` is free of line-terminator
characters. -/
theorem splitLines_no_break : ∀ cs : List Char, ∀ l ∈ splitLines cs,
    ∀ c ∈ l, isLineBreak c = false
  | [] => by simp [splitLines]
  | [c] => by
    simp only [splitLines]
    split
    · simp
    · rename_i hb
      intro l hl d hd
      rw [List.mem_singleton.mp hl] at hd
      rw [List.mem_singleton.mp hd]
      simpa using hb
  | c1 :: c2 :: rest => by
    simp only [splitLines]
    split
    · intro l hl d hd
      rcases List.mem_cons.mp hl with h | h
      · rw [h] at hd
        simp at hd
      · exact splitLines_no_break rest l h d hd
    · split
      · intro l hl d hd
        rcases List.mem_cons.mp hl with h | h
        · rw [h] at hd
          simp at hd
        · exact splitLines_no_break (c2 :: rest) l h d hd
      · rename_i hcr hb
        cases h : splitLines (c2 :: rest) with
        | nil => exact absurd h (splitLines_ne_nil _)
        | cons g gs =>
          intro l hl d hd
          rcases List.mem_cons.mp hl with h' | h'
          · rw [h'] at hd
            rcases List.mem_cons.mp hd with h'' | h''
            · rw [h'']
              simpa using hb
            · exact splitLines_no_break (c2 :: rest) g
                (h ▸ List.mem_cons_self g gs) d h''
          · exact splitLines_no_break (c2 :: rest) l
              (h ▸ List.mem_cons_of_mem g h') d hd

/-- On a text whose only line-terminator character is `'\n'`, Python line
splitting is plain `'\n'`-splitting. -/
theorem splitLines_eq_splitNl : ∀ cs : List Char,
    (∀ c ∈ cs, isLineBreak c = true → c = '\n') →
    splitLines cs = splitNl cs
  | [], _ => rfl
  | [c], h => by
    by_cases hb : isLineBreak c
    · have hcn : c = '\n' := h c (by simp) hb
      subst hcn
      decide
    · have hcn : c ≠ '\n' := fun he => hb (by rw [he]; decide)
      show (if isLineBreak c then [[], []] else [[c]]) = splitNl (c :: [])
      rw [if_neg hb]
      conv_rhs => rw [splitNl]
      rw [if_neg hcn]
      rfl
  | c1 :: c2 :: rest, h => by
    have hrec2 : splitLines (c2 :: rest) = splitNl (c2 :: rest) :=
      splitLines_eq_splitNl (c2 :: rest) fun c hc =>
        h c (List.mem_cons_of_mem c1 hc)
    by_cases hcr : c1 = '\r' ∧ c2 = '\n'
    · exfalso
      have h1 : c1 = '\n' := h c1 (by simp) (by rw [hcr.1]; decide)
      rw [hcr.1] at h1
      exact absurd h1 (by decide)
    · show (if c1 = '\r' ∧ c2 = '\n' then [] :: splitLines rest
        else if isLineBreak c1 then [] :: splitLines (c2 :: rest)
        else match splitLines (c2 :: rest) with
          | [] => [[c1]]
          | l :: ls => (c1 :: l) :: ls) = splitNl (c1 :: c2 :: rest)
      rw [if_neg hcr]
      by_cases hb : isLineBreak c1
      · have hcn : c1 = '\n' := h c1 (by simp) hb
        rw [if_pos hb, hrec2]
        subst hcn
        conv_rhs => rw [splitNl]
        rw [if_pos rfl]
      · have hcn : c1 ≠ '\n' := fun he => hb (by rw [he]; decide)
        rw [if_neg hb, hrec2]
        conv_rhs => rw [splitNl]
        rw [if_neg hcn]

theorem splitLines_eq_singleton_nil : ∀ {cs : List Char},
    splitLines cs = [[]] → cs = []
  | [], _ => rfl
  | [c], h => by
    simp only [splitLines] at h
    split at h <;> simp at h
  | c1 :: c2 :: rest, h => by
    simp only [splitLines] at h
    split at h
    · simp only [List.cons.injEq] at h
      exact absurd h.2 (splitLines_ne_nil rest)
    · split at h
      · simp only [List.cons.injEq] at h
        exact absurd h.2 (splitLines_ne_nil (c2 :: rest))
      · split at h
        · rename_i hmatch
          exact absurd hmatch (splitLines_ne_nil _)
        · simp at h

/-- For input whose only terminator character is `'\n'` and which does not
end in a newline, `pySplitlines` is exactly `splitNl` on the character
data. -/
theorem pySplitlines_of_no_trailing {s : String} (h0 : s ≠ "")
    (htame : ∀ c ∈ s.data, isLineBreak c = true → c = '\n')
    (h1 : s.data.getLast? ≠ some '\n') :
    pySplitlines s = (splitNl s.data).map fun cs => String.mk cs := by
  have hd : s.data ≠ [] := fun h => h0 (String.ext (by simpa using h))
  have heq : splitLines s.data = splitNl s.data :=
    splitLines_eq_splitNl s.data htame
  show ((if (splitLines s.data).getLast? = some [] then
      (splitLines s.data).dropLast else splitLines s.data).map
      fun cs => String.mk cs) = _
  rw [heq, if_neg]
  exact fun h => splitNl_getLast?_ne_nil hd h1 h

theorem pySplitlines_ne_nil {s : String} (h0 : s ≠ "") :
    pySplitlines s ≠ [] := by
  have hd : s.data ≠ [] := fun h => h0 (String.ext (by simpa using h))
  show ((if (splitLines s.data).getLast? = some [] then
      (splitLines s.data).dropLast else splitLines s.data).map
      fun cs => String.mk cs) ≠ []
  simp only [ne_eq, List.map_eq_nil_iff]
  split
  · rename_i hlast
    intro hdrop
    cases h : splitLines s.data with
    | nil => exact absurd h (splitLines_ne_nil s.data)
    | cons g gs =>
      rw [h] at hdrop hlast
      cases gs with
      | nil =>
        simp only [List.getLast?_singleton, Option.some.injEq] at hlast
        exact hd (splitLines_eq_singleton_nil (by rw [h, hlast]))
      | cons g2 gs2 => simp [List.dropLast] at hdrop
  · exact splitLines_ne_nil s.data

theorem append_assoc_str (a b c : String) : a ++ b ++ c = a ++ (b ++ c) :=
  String.ext (by simp [data_append])

theorem pyJoin_cons_cons (sep x y : String) (ys : List String) :
    pyJoin sep (x :: y :: ys) = x ++ sep ++ pyJoin sep (y :: ys) := by
  induction ys generalizing x y with
  | nil => rfl
  | cons z zs ih =>
    show pyJoin sep ((x ++ sep ++ y) :: z :: zs) = _
    rw [ih (x ++ sep ++ y) z, ih y z]
    simp [append_assoc_str]

theorem pyJoin_cons (sep x : String) (ys : List String) (hy : ys ≠ []) :
    pyJoin sep (x :: ys) = x ++ sep ++ pyJoin sep ys := by
  cases ys with
  | nil => exact absurd rfl hy
  | cons y ys2 => exact pyJoin_cons_cons sep x y ys2

theorem pyJoin_map_mk (gs : List (List Char)) :
    pyJoin "\n" (gs.map fun cs => String.mk cs) = String.mk (joinNl gs) := by
  induction gs with
  | nil => rfl
  | cons g gs ih =>
    cases gs with
    | nil => rfl
    | cons g2 gs2 =>
      rw [List.map_cons, pyJoin_cons _ _ _ (by simp), ih]
      refine String.ext ?_
      simp only [data_append, joinNl]
      simp

theorem mk_data (s : String) : String.mk s.data = s := by cases s; rfl

theorem pyJoin_one (sep x : String) : pyJoin sep [x] = x := rfl

/-- Join distributes over a nonempty split of the list. -/
theorem pyJoin_append (sep : String) (g rest : List String) (hg : g ≠ [])
    (hr : rest ≠ []) :
    pyJoin sep (g ++ rest) = pyJoin sep g ++ sep ++ pyJoin sep rest := by
  induction g with
  | nil => exact absurd rfl hg
  | cons x g' ih =>
    cases g' with
    | nil => simpa using pyJoin_cons sep x rest hr
    | cons y g2 =>
      have h1 : (y :: g2) ++ rest ≠ [] := by simp
      calc pyJoin sep (x :: (y :: g2 ++ rest))
          = x ++ sep ++ pyJoin sep (y :: g2 ++ rest) := by
            exact pyJoin_cons sep x _ (by simp)
        _ = x ++ sep ++ (pyJoin sep (y :: g2) ++ sep ++ pyJoin sep rest) := by
            rw [ih (by simp)]
        _ = (x ++ sep ++ pyJoin sep (y :: g2)) ++ sep ++ pyJoin sep rest := by
            simp [append_assoc_str]
        _ = pyJoin sep (x :: y :: g2) ++ sep ++ pyJoin sep rest := by
            rw [pyJoin_cons_cons]

theorem flatten_ne_nil_of_head {α : Type} (g : List α) (gs : List (List α))
    (hg : g ≠ []) : (g :: gs).flatten ≠ [] := by
  cases g with
  | nil => exact absurd rfl hg
  | cons x xs => simp

/-- Joining the already-joined groups equals joining the flattened lines,
provided every group is nonempty. -/
theorem pyJoin_flatten (sep : String) (gs : List (List String))
    (h : ∀ g ∈ gs, g ≠ []) :
    pyJoin sep (gs.map (pyJoin sep)) = pyJoin sep gs.flatten := by
  induction gs with
  | nil => rfl
  | cons g gs ih =>
    cases gs with
    | nil => simp [pyJoin_one]
    | cons g2 gs2 =>
      have hg : g ≠ [] := h g (by simp)
      have hflat : (g2 :: gs2).flatten ≠ [] :=
        flatten_ne_nil_of_head g2 gs2 (h g2 (by simp))
      calc pyJoin sep (pyJoin sep g :: (g2 :: gs2).map (pyJoin sep))
          = pyJoin sep g ++ sep ++ pyJoin sep ((g2 :: gs2).map (pyJoin sep)) := by
            exact pyJoin_cons sep _ _ (by simp)
        _ = pyJoin sep g ++ sep ++ pyJoin sep (g2 :: gs2).flatten := by
            rw [ih (fun g' hg' => h g' (List.mem_cons_of_mem _ hg'))]
        _ = pyJoin sep (g ++ (g2 :: gs2).flatten) := by
            rw [pyJoin_append sep _ _ hg hflat]
        _ = pyJoin sep (g :: g2 :: gs2).flatten := by simp

/-! ## Chunker fold invariant -/

/-- `len(line) + 1`: the running-length contribution of one line in
`chunk_text_by_chars` (one added separator character per line). -/
def lineSize (l : String) : Int := (l.length : Int) + 1

/-- Buffer length tracked by `chunk_text_by_chars`: sum of `len(line)+1`. -/
def sumL (g : List String) : Int := (g.map lineSize).sum

theorem sumL_nil : sumL [] = 0 := rfl

theorem sumL_append_one (g : List String) (l : String) :
    sumL (g ++ [l]) = sumL g + lineSize l := by
  simp [sumL]

theorem sumL_one (l : String) : sumL [l] = lineSize l := by simp [sumL]

theorem one_le_lineSize (l : String) : 1 ≤ lineSize l := by
  have : (0 : Int) ≤ (l.length : Int) := Int.natCast_nonneg _
  unfold lineSize
  omega

/-- The joined chunk of a nonempty buffer has length `sumL g - 1`. -/
theorem length_pyJoin (g : List String) (hg : g ≠ []) :
    ((pyJoin "\n" g).length : Int) = sumL g - 1 := by
  induction g with
  | nil => exact absurd rfl hg
  | cons x g' ih =>
    cases g' with
    | nil => simp [pyJoin_one, sumL_one, lineSize]
    | cons y g2 =>
      rw [pyJoin_cons_cons, length_append_str, length_append_str]
      have := ih (by simp)
      have hsum : sumL (x :: y :: g2) = lineSize x + sumL (y :: g2) := by
        simp [sumL, lineSize]
      rw [hsum]
      unfold lineSize
      push_cast
      have hnl : ("\n".length : Int) = 1 := rfl
      omega

/-- Invariant of the accumulation loop of `chunk_text_by_chars`: the state
`(chunks, cur, cur_len)` after processing the lines `done`, relative to the
configured budget.  The emitted chunks are joins of nonempty groups; the
groups followed by the buffer partition `done`; every emitted group fits the
budget or is a single line; `cur_len` is the tracked size of the buffer;
and the buffer itself fits the budget or is at most a single line. -/
def ChunkInv (max_chars : Int) (done : List String)
    (st : List String × List String × Int) : Prop :=
  ∃ gs : List (List String),
    st.1 = gs.map (pyJoin "\n") ∧
    gs.flatten ++ st.2.1 = done ∧
    (∀ g ∈ gs, g ≠ []) ∧
    (∀ g ∈ gs, sumL g ≤ max_chars ∨ ∃ l, g = [l]) ∧
    st.2.2 = sumL st.2.1 ∧
    (st.2.1 = [] ∨ sumL st.2.1 ≤ max_chars ∨ ∃ l, st.2.1 = [l])

theorem chunkInv_init (max_chars : Int) : ChunkInv max_chars [] ([], [], 0) :=
  ⟨[], rfl, rfl, by simp, by simp, rfl, Or.inl rfl⟩

theorem chunkInv_step (max_chars : Int) {done : List String}
    {st : List String × List String × Int}
    (h : ChunkInv max_chars done st) (line : String) :
    ChunkInv max_chars (done ++ [line]) (chunkStep max_chars st line) := by
  obtain ⟨chunks, cur, cur_len⟩ := st
  obtain ⟨gs, h1, h2, h3, h4, h5, h6⟩ := h
  simp only at h1 h2 h5 h6
  simp only [chunkStep]
  split
  · rename_i hcond
    refine ⟨gs ++ [cur], ?_, ?_, ?_, ?_, ?_, ?_⟩
    · simp [h1]
    · simp only [List.flatten_append, List.flatten_cons, List.flatten_nil,
        List.append_nil, List.append_assoc]
      rw [← List.append_assoc, h2]
    · intro g hg
      rcases List.mem_append.mp hg with h' | h'
      · exact h3 g h'
      · rw [List.mem_singleton.mp h']
        exact hcond.2
    · intro g hg
      rcases List.mem_append.mp hg with h' | h'
      · exact h4 g h'
      · rw [List.mem_singleton.mp h']
        rcases h6 with h6 | h6 | h6
        · exact absurd h6 hcond.2
        · exact Or.inl h6
        · exact Or.inr h6
    · simp [sumL_one, lineSize]
    · exact Or.inr (Or.inr ⟨line, rfl⟩)
  · rename_i hcond
    refine ⟨gs, h1, ?_, h3, h4, ?_, ?_⟩
    · simp only [← List.append_assoc]
      rw [h2]
    · simp only [sumL_append_one, h5, lineSize]
    · rw [Classical.not_and_iff_or_not_not] at hcond
      rcases hcond with hcond | hcond
      · push_neg at hcond
        refine Or.inr (Or.inl ?_)
        rw [sumL_append_one, ← h5]
        exact hcond
      · push_neg at hcond
        subst hcond
        exact Or.inr (Or.inr ⟨line, by simp⟩)

theorem chunkInv_foldl (max_chars : Int) (ls : List String) :
    ∀ {done : List String} {st : List String × List String × Int},
      ChunkInv max_chars done st →
      ChunkInv max_chars (done ++ ls) (ls.foldl (chunkStep max_chars) st) := by
  induction ls with
  | nil => intro done st h; simpa using h
  | cons l ls ih =>
    intro done st h
    have h' := chunkInv_step max_chars h l
    have := ih h'
    simpa [List.append_assoc] using this

/-- The buffer is nonempty after processing at least one line. -/
theorem chunk_foldl_cur_ne_nil (max_chars : Int) :
    ∀ (ls : List String) (st : List String × List String × Int), ls ≠ [] →
      (ls.foldl (chunkStep max_chars) st).2.1 ≠ []
  | [], _, h => absurd rfl h
  | [l], st, _ => by
    obtain ⟨chunks, cur, cur_len⟩ := st
    simp only [List.foldl_cons, List.foldl_nil, chunkStep]
    split <;> simp
  | l :: l2 :: ls2, st, _ => by
    rw [List.foldl_cons]
    exact chunk_foldl_cur_ne_nil max_chars (l2 :: ls2) _ (by simp)

/-- Structure of the chunker output in the multi-chunk branch: the chunks
are joins of an ordered list of nonempty line groups whose concatenation is
exactly the split of the input, and every group fits the budget or is a
single line. -/
theorem chunk_groups (text : String) (max_chars : Int)
    (hgt : ¬ (text.length : Int) ≤ max_chars) :
    ∃ gs : List (List String),
      chunk_text_by_chars text max_chars = gs.map (pyJoin "\n") ∧
      gs.flatten = pySplitlines text ∧
      (∀ g ∈ gs, g ≠ []) ∧
      (∀ g ∈ gs, sumL g ≤ max_chars ∨ ∃ l, g = [l]) := by
  have hinv := chunkInv_foldl max_chars (pySplitlines text) (chunkInv_init max_chars)
  rw [List.nil_append] at hinv
  obtain ⟨gs, h1, h2, h3, h4, h5, h6⟩ := hinv
  unfold chunk_text_by_chars
  rw [if_neg hgt]
  set res := (pySplitlines text).foldl (chunkStep max_chars) ([], [], 0) with hres
  obtain ⟨chunks, cur, cur_len⟩ := res
  simp only at h1 h2 h5 h6 ⊢
  by_cases hcur : cur = []
  · subst hcur
    refine ⟨gs, ?_, ?_, h3, h4⟩
    · simp [h1]
    · simpa using h2
  · refine ⟨gs ++ [cur], ?_, ?_, ?_, ?_⟩
    · simp [h1, hcur]
    · simpa using h2
    · intro g hg
      rcases List.mem_append.mp hg with h' | h'
      · exact h3 g h'
      · rw [List.mem_singleton.mp h']; exact hcur
    · intro g hg
      rcases List.mem_append.mp hg with h' | h'
      · exact h4 g h'
      · rw [List.mem_singleton.mp h']
        rcases h6 with h6 | h6 | h6
        · exact absurd h6 hcur
        · exact Or.inl h6
        · exact Or.inr h6

theorem pySplitlines_no_newline (s : String) :
    ∀ l ∈ pySplitlines s, '\n' ∉ l.data := by
  intro l hl
  have : ∃ cs ∈ (if (splitLines s.data).getLast? = some []
      then (splitLines s.data).dropLast else splitLines s.data),
      String.mk cs = l := by
    simpa [pySplitlines] using hl
  obtain ⟨cs, hcs, rfl⟩ := this
  have hmem : cs ∈ splitLines s.data := by
    by_cases h : (splitLines s.data).getLast? = some []
    · rw [if_pos h] at hcs
      exact (List.dropLast_sublist _).subset hcs
    · rwa [if_neg h] at hcs
  intro hnl
  have := splitLines_no_break s.data cs hmem '\n' hnl
  exact absurd this (by decide)

theorem text_ne_empty_of_gt {text : String} {max_chars : Int}
    (hpos : 0 < max_chars) (hgt : ¬ (text.length : Int) ≤ max_chars) :
    text ≠ "" := by
  intro h
  subst h
  exact hgt (by simpa using hpos.le)

/-! ## Claim theorems about the Chunker -/

/-- C1 (counterexample): the round-trip claim fails as stated.  For an
input ending in a newline, `chunk_text_by_chars "a\n" 1 = ["a"]` (Python
`splitlines` drops the trailing line terminator) and rejoining gives
`"a" ≠ "a\n"`.  For an input containing another Python line terminator,
`chunk_text_by_chars "a\rb" 1 = ["a", "b"]` (`splitlines` splits at the
carriage return) and rejoining with `"\n"` gives `"a\nb" ≠ "a\rb"`. -/
theorem chunk_roundtrip_counterexample :
    pyJoin "\n" (chunk_text_by_chars "a\n" 1) ≠ "a\n" ∧
      pyJoin "\n" (chunk_text_by_chars "a\rb" 1) ≠ "a\rb" := by
  exact ⟨by decide, by decide⟩

/-- C1 (amended): for every input text whose only line-terminator
character is `'\n'` (none of `\r`, `\v`, `\f`, `\x1c`-`\x1e`, `\x85`,
U+2028, U+2029) and which does not end with a newline — in particular
every rendered transcript, which is a `"\n"`-join of terminator-free
lines — and every positive `max_chars`, rejoining the chunks returned by
`chunk_text_by_chars` with `"\n"` exactly reconstructs the input: no line
is split across chunks, none dropped, none duplicated. -/
theorem chunk_roundtrip (text : String) (max_chars : Int)
    (hpos : 0 < max_chars)
    (htame : ∀ c ∈ text.data, isLineBreak c = true → c = '\n')
    (hnl : text.data.getLast? ≠ some '\n') :
    pyJoin "\n" (chunk_text_by_chars text max_chars) = text := by
  by_cases hle : (text.length : Int) ≤ max_chars
  · unfold chunk_text_by_chars
    rw [if_pos hle]
    exact pyJoin_one _ _
  · have hne := text_ne_empty_of_gt hpos hle
    obtain ⟨gs, hEq, hFlat, hNe, -⟩ := chunk_groups text max_chars hle
    rw [hEq, pyJoin_flatten _ _ hNe, hFlat,
      pySplitlines_of_no_trailing hne htame hnl, pyJoin_map_mk,
      joinNl_splitNl, mk_data]

theorem chunk_roundtrip_witness :
    (0 : Int) < 5 ∧
      (∀ c ∈ "ab\ncd\nef".data, isLineBreak c = true → c = '\n') ∧
      ("ab\ncd\nef".data.getLast? ≠ some '\n') ∧
      pyJoin "\n" (chunk_text_by_chars "ab\ncd\nef" 5) = "ab\ncd\nef" :=
  ⟨by decide, by decide, by decide,
    chunk_roundtrip "ab\ncd\nef" 5 (by decide) (by decide) (by decide)⟩

/-- C2: for positive `max_chars`, every returned chunk has length at most
`max_chars`, except possibly a chunk that is a single over-long input line
(it contains no newline and is one of the lines of `text.splitlines()`),
emitted whole. -/
theorem chunk_size_bound (text : String) (max_chars : Int)
    (hpos : 0 < max_chars) :
    ∀ c ∈ chunk_text_by_chars text max_chars,
      (c.length : Int) ≤ max_chars ∨
        (max_chars < (c.length : Int) ∧ c ∈ pySplitlines text ∧
          '\n' ∉ c.data) := by
  intro c hc
  by_cases hle : (text.length : Int) ≤ max_chars
  · unfold chunk_text_by_chars at hc
    rw [if_pos hle] at hc
    rw [List.mem_singleton.mp hc]
    exact Or.inl hle
  · obtain ⟨gs, hEq, hFlat, hNe, hOk⟩ := chunk_groups text max_chars hle
    rw [hEq] at hc
    obtain ⟨g, hg, rfl⟩ := List.mem_map.mp hc
    rcases hOk g hg with hsum | ⟨l, rfl⟩
    · refine Or.inl ?_
      rw [length_pyJoin g (hNe g hg)]
      omega
    · rw [pyJoin_one]
      by_cases hlen : (l.length : Int) ≤ max_chars
      · exact Or.inl hlen
      · refine Or.inr ⟨by omega, ?_, ?_⟩
        · rw [← hFlat]
          exact List.mem_flatten.mpr ⟨[l], hg, by simp⟩
        · have hmem : l ∈ pySplitlines text := by
            rw [← hFlat]
            exact List.mem_flatten.mpr ⟨[l], hg, by simp⟩
          exact pySplitlines_no_newline text l hmem

theorem chunk_size_bound_witness :
    (0 : Int) < 4 ∧
      ((chunk_text_by_chars "ab\ncd\nef" 4 = ["ab", "cd", "ef"]) ∧
        ∀ c ∈ chunk_text_by_chars "ab\ncd\nef" 4,
          (c.length : Int) ≤ 4 ∨
            (4 < (c.length : Int) ∧ c ∈ pySplitlines "ab\ncd\nef" ∧
              '\n' ∉ c.data)) :=
  ⟨by decide, by decide, chunk_size_bound "ab\ncd\nef" 4 (by decide)⟩

/-- With a non-positive budget every line is immediately flushed: starting
from a buffer holding one line, the loop emits one chunk per line. -/
theorem chunk_foldl_nonpos (max_chars : Int) (hmax : max_chars ≤ 0) :
    ∀ (ls : List String) (l : String) (chunks : List String),
      ls.foldl (chunkStep max_chars) (chunks, [l], lineSize l)
        = (chunks ++ (l :: ls).dropLast,
           [(l :: ls).getLast (List.cons_ne_nil l ls)],
           lineSize ((l :: ls).getLast (List.cons_ne_nil l ls)))
  | [], l, chunks => by simp [List.dropLast]
  | l2 :: ls2, l, chunks => by
    rw [List.foldl_cons]
    have hstep : chunkStep max_chars (chunks, [l], lineSize l) l2
        = (chunks ++ [l], [l2], lineSize l2) := by
      simp only [chunkStep]
      rw [if_pos]
      · rw [pyJoin_one]
        exact rfl
      · refine ⟨?_, by simp⟩
        have h1 := one_le_lineSize l
        have h2 := one_le_lineSize l2
        unfold lineSize at h1 h2 ⊢
        omega
    rw [hstep, chunk_foldl_nonpos max_chars hmax ls2 l2 (chunks ++ [l])]
    rw [List.getLast_cons (List.cons_ne_nil l2 ls2)]
    simp [List.append_assoc]

/-- With a non-positive budget and nonempty input, `chunk_text_by_chars`
silently returns one chunk per input line, raising no error. -/
theorem chunk_nonpos_one_per_line (text : String) (max_chars : Int)
    (hmax : max_chars ≤ 0) (hne : text ≠ "") :
    chunk_text_by_chars text max_chars = pySplitlines text := by
  have hd : text.data ≠ [] := fun h => hne (String.ext (by simpa using h))
  have hlen : 0 < text.length := by
    cases h : text.data with
    | nil => exact absurd h hd
    | cons c cs =>
      show 0 < text.data.length
      simp [h]
  have hgt : ¬ (text.length : Int) ≤ max_chars := by
    have : (1 : Int) ≤ (text.length : Int) := by exact_mod_cast hlen
    omega
  unfold chunk_text_by_chars
  rw [if_neg hgt]
  cases hsplit : pySplitlines text with
  | nil => exact absurd hsplit (pySplitlines_ne_nil hne)
  | cons l ls =>
    rw [List.foldl_cons]
    have hfirst : chunkStep max_chars ([], [], 0) l = ([], [l], lineSize l) := by
      simp only [chunkStep]
      rw [if_neg (by simp)]
      simp [lineSize]
    rw [hfirst, chunk_foldl_nonpos max_chars hmax ls l []]
    simp only [List.nil_append, ne_eq, List.cons_ne_nil, not_false_eq_true,
      if_pos, pyJoin_one, reduceIte]
    exact List.dropLast_append_getLast (List.cons_ne_nil l ls)

/-- C3: `chunk_text_by_chars` performs no validation of `max_chars`.  For a
non-positive `max_chars` it does not fail fast: it terminates normally and
silently returns one chunk per line (`"ab\ncd"` with `max_chars = 0` gives
`["ab", "cd"]`), contradicting the claimed invalid-configuration error. -/
theorem chunk_nonpos_max_silent :
    chunk_text_by_chars "ab\ncd" 0 = ["ab", "cd"] ∧
      ∀ (text : String) (max_chars : Int), max_chars ≤ 0 → text ≠ "" →
        chunk_text_by_chars text max_chars = pySplitlines text :=
  ⟨by decide, fun text max_chars hmax hne =>
    chunk_nonpos_one_per_line text max_chars hmax hne⟩

theorem chunk_nonpos_max_silent_witness :
    (-2 : Int) ≤ 0 ∧ ("x\ny" : String) ≠ "" ∧
      chunk_text_by_chars "x\ny" (-2) = pySplitlines "x\ny" :=
  ⟨by decide, by decide, chunk_nonpos_max_silent.2 "x\ny" (-2) (by decide)
    (by decide)⟩

/-- C5: for positive `max_chars`, any text whose length is at most
`max_chars` is returned as the single chunk `[text]`; in particular the
empty string yields `[""]`. -/
theorem chunk_single_small (max_chars : Int) (hpos : 0 < max_chars) :
    (∀ text : String, (text.length : Int) ≤ max_chars →
        chunk_text_by_chars text max_chars = [text]) ∧
      chunk_text_by_chars "" max_chars = [""] := by
  constructor
  · intro text h
    unfold chunk_text_by_chars
    rw [if_pos h]
  · unfold chunk_text_by_chars
    rw [if_pos (by simpa using hpos.le)]

theorem chunk_single_small_witness :
    (0 : Int) < 10 ∧ (("ab\ncd".length : Int) ≤ 10 ∧
      chunk_text_by_chars "ab\ncd" 10 = ["ab\ncd"]) ∧
      chunk_text_by_chars "" 10 = [""] :=
  ⟨by decide, ⟨by decide, (chunk_single_small 10 (by decide)).1 "ab\ncd"
    (by decide)⟩, (chunk_single_small 10 (by decide)).2⟩

/-- C10: for positive `max_chars` the chunker always returns at least one
chunk, for every input text (the zero-chunk option for empty input is never
taken). -/
theorem chunk_ne_nil (text : String) (max_chars : Int)
    (hpos : 0 < max_chars) : chunk_text_by_chars text max_chars ≠ [] := by
  by_cases hle : (text.length : Int) ≤ max_chars
  · unfold chunk_text_by_chars
    rw [if_pos hle]
    simp
  · have hne := text_ne_empty_of_gt hpos hle
    obtain ⟨gs, hEq, hFlat, -, -⟩ := chunk_groups text max_chars hle
    rw [hEq]
    intro h
    rw [List.map_eq_nil_iff.mp h] at hFlat
    exact pySplitlines_ne_nil hne hFlat.symm

theorem chunk_ne_nil_witness :
    (0 : Int) < 1 ∧ chunk_text_by_chars "" 1 ≠ [] :=
  ⟨by decide, chunk_ne_nil "" 1 (by decide)⟩

/-! ## `format_timestamp` (src/summarizer.py lines 47-54) -/

/-- Python float floor-division `a // b`: the floor of the quotient,
returned as a (float-valued) number. -/
def pyFloorDiv (a b : ℚ) : ℚ := (⌊a / b⌋ : ℚ)

/-- Python float modulo `a % b`: for the positive divisors used here,
`a - b * (a // b)`. -/
def pyMod (a b : ℚ) : ℚ := a - b * pyFloorDiv a b

/-- Python `int(...)` on a number: truncation toward zero. -/
def pyInt (q : ℚ) : Int := if 0 ≤ q then ⌊q⌋ else ⌈q⌉

/-- Base-10 digits of `n`, least significant first, computed with
structural fuel (a number `n` has at most `n` decimal digits). -/
def natDigitsAux : Nat → Nat → List Nat
  | 0, _ => []
  | _ + 1, 0 => []
  | fuel + 1, n + 1 => (n + 1) % 10 :: natDigitsAux fuel ((n + 1) / 10)

def natDigits (n : Nat) : List Nat := natDigitsAux n n

/-- Decimal representation of a natural number, as Python's built-in
formatting prints it. -/
def natRepr (n : Nat) : List Char :=
  if n = 0 then ['0'] else ((natDigits n).map Nat.digitChar).reverse

def natToString (n : Nat) : String := String.mk (natRepr n)

/-- Python `f"{n:02}"` for a nonnegative value: zero-pad to width at least
2 (wider values are printed in full). -/
def pad2 (n : Nat) : String :=
  if n < 10 then "0" ++ natToString n else natToString n

/-- Python `f"{i:02}"` for a possibly negative `int` (a negative value is
printed with a leading minus sign and is already at least 2 wide). -/
def intPad2 (i : Int) : String :=
  if i < 0 then "-" ++ natToString i.natAbs else pad2 i.toNat

/-- Embedding of `format_timestamp(seconds)` (src/summarizer.py lines
47-54): `hours = int(seconds // 3600)`,
`minutes = int((seconds % 3600) // 60)`, `seconds = int(seconds % 60)`,
rendered as `f"{hours:02}:{minutes:02}:{seconds:02}"`. -/
def format_timestamp (seconds : ℚ) : String :=
  let hours := pyInt (pyFloorDiv seconds 3600)
  let minutes := pyInt (pyFloorDiv (pyMod seconds 3600) 60)
  let secs := pyInt (pyMod seconds 60)
  intPad2 hours ++ ":" ++ intPad2 minutes ++ ":" ++ intPad2 secs

/-- `HH:MM:SS` of a whole number of seconds; `format_timestamp` on a
nonnegative input agrees with this on the input's floor. -/
def fmtHMS (t : Nat) : String :=
  pad2 (t / 3600) ++ ":" ++ pad2 (t % 3600 / 60) ++ ":" ++ pad2 (t % 60)

/-- Modelled from the spec (§4.1): `HH = floor(seconds/3600)` zero-padded
to at least 2, `MM = floor((seconds mod 3600)/60)` zero-padded to 2,
`SS = floor(seconds mod 60)` zero-padded to 2, where `x mod m` denotes
`x - m*floor(x/m)`. -/
def format_timestamp_spec (s : ℚ) : String :=
  pad2 ⌊s / 3600⌋₊ ++ ":" ++
    pad2 ⌊(s - 3600 * (⌊s / 3600⌋₊ : ℚ)) / 60⌋₊ ++ ":" ++
    pad2 ⌊s - 60 * (⌊s / 60⌋₊ : ℚ)⌋₊

/-! ## Timestamp helper lemmas -/

theorem pyInt_intCast (z : Int) : pyInt (z : ℚ) = z := by
  unfold pyInt
  split
  · exact Int.floor_intCast z
  · exact Int.ceil_intCast z

theorem pyInt_natCast (n : ℕ) : pyInt ((n : ℚ)) = (n : Int) := by
  have := pyInt_intCast (n : Int)
  rwa [Int.cast_natCast] at this

theorem intPad2_natCast (n : ℕ) : intPad2 (n : Int) = pad2 n := by
  unfold intPad2
  rw [if_neg (by exact_mod_cast Int.not_lt.mpr (Int.natCast_nonneg n))]
  rw [Int.toNat_natCast]

theorem floor_eq_natFloor {q : ℚ} (h : 0 ≤ q) : ⌊q⌋ = (⌊q⌋₊ : Int) := by
  rw [← Int.floor_toNat, Int.toNat_of_nonneg (Int.floor_nonneg.mpr h)]

theorem pyFloorDiv_natCast (s : ℚ) (hs : 0 ≤ s) (n : ℕ) :
    pyFloorDiv s (n : ℚ) = ((⌊s⌋₊ / n : ℕ) : ℚ) := by
  unfold pyFloorDiv
  rw [floor_eq_natFloor (div_nonneg hs (Nat.cast_nonneg n)),
    Nat.floor_div_nat s n]
  norm_cast

theorem pyMod_natCast (s : ℚ) (hs : 0 ≤ s) (n : ℕ) :
    pyMod s (n : ℚ) = s - ((n * (⌊s⌋₊ / n) : ℕ) : ℚ) := by
  unfold pyMod
  rw [pyFloorDiv_natCast s hs n]
  push_cast
  ring

theorem mul_div_le_floor (s : ℚ) (hs : 0 ≤ s) (n : ℕ) :
    ((n * (⌊s⌋₊ / n) : ℕ) : ℚ) ≤ s := by
  have h1 : (n * (⌊s⌋₊ / n) : ℕ) ≤ ⌊s⌋₊ := Nat.mul_div_le _ n
  calc ((n * (⌊s⌋₊ / n) : ℕ) : ℚ) ≤ (⌊s⌋₊ : ℚ) := by exact_mod_cast h1
    _ ≤ s := Nat.floor_le hs

theorem pyMod_nonneg (s : ℚ) (hs : 0 ≤ s) (n : ℕ) :
    0 ≤ pyMod s (n : ℚ) := by
  rw [pyMod_natCast s hs n]
  have := mul_div_le_floor s hs n
  linarith

theorem natFloor_pyMod (s : ℚ) (hs : 0 ≤ s) (n : ℕ) :
    ⌊pyMod s (n : ℚ)⌋₊ = ⌊s⌋₊ % n := by
  rw [pyMod_natCast s hs n, Nat.floor_sub_nat]
  have := Nat.div_add_mod ⌊s⌋₊ n
  omega

theorem format_eq_fmtHMS (s : ℚ) (hs : 0 ≤ s) :
    format_timestamp s = fmtHMS ⌊s⌋₊ := by
  have h3600 : (3600 : ℚ) = ((3600 : ℕ) : ℚ) := by norm_num
  have h60 : (60 : ℚ) = ((60 : ℕ) : ℚ) := by norm_num
  have hmod : 0 ≤ pyMod s ((3600 : ℕ) : ℚ) := pyMod_nonneg s hs 3600
  have hhours : pyInt (pyFloorDiv s 3600) = ((⌊s⌋₊ / 3600 : ℕ) : Int) := by
    rw [h3600, pyFloorDiv_natCast s hs 3600, pyInt_natCast]
  have hmins : pyInt (pyFloorDiv (pyMod s 3600) 60)
      = ((⌊s⌋₊ % 3600 / 60 : ℕ) : Int) := by
    rw [h3600, h60, pyFloorDiv_natCast _ hmod 60, pyInt_natCast,
      natFloor_pyMod s hs 3600]
  have hsecs : pyInt (pyMod s 60) = ((⌊s⌋₊ % 60 : ℕ) : Int) := by
    rw [h60, pyInt]
    rw [if_pos (pyMod_nonneg s hs 60),
      floor_eq_natFloor (pyMod_nonneg s hs 60), natFloor_pyMod s hs 60]
  show intPad2 (pyInt (pyFloorDiv s 3600)) ++ ":" ++
      intPad2 (pyInt (pyFloorDiv (pyMod s 3600) 60)) ++ ":" ++
      intPad2 (pyInt (pyMod s 60)) = _
  rw [hhours, hmins, hsecs, intPad2_natCast, intPad2_natCast, intPad2_natCast]
  rfl

theorem spec_eq_fmtHMS (s : ℚ) (hs : 0 ≤ s) :
    format_timestamp_spec s = fmtHMS ⌊s⌋₊ := by
  have h3600 : (3600 : ℚ) = ((3600 : ℕ) : ℚ) := by norm_num
  have h60 : (60 : ℚ) = ((60 : ℕ) : ℚ) := by norm_num
  have hh : ⌊s / 3600⌋₊ = ⌊s⌋₊ / 3600 := by
    rw [h3600, Nat.floor_div_nat]
  have hmodEq : s - 3600 * (⌊s / 3600⌋₊ : ℚ) = pyMod s ((3600 : ℕ) : ℚ) := by
    rw [pyMod_natCast s hs 3600, hh]
    push_cast
    ring
  have hm : ⌊(s - 3600 * (⌊s / 3600⌋₊ : ℚ)) / 60⌋₊ = ⌊s⌋₊ % 3600 / 60 := by
    rw [hmodEq, h60, Nat.floor_div_nat, natFloor_pyMod s hs 3600]
  have hsec : ⌊s - 60 * (⌊s / 60⌋₊ : ℚ)⌋₊ = ⌊s⌋₊ % 60 := by
    have : s - 60 * (⌊s / 60⌋₊ : ℚ) = pyMod s ((60 : ℕ) : ℚ) := by
      rw [pyMod_natCast s hs 60, h60, Nat.floor_div_nat]
      push_cast
      ring
    rw [this, natFloor_pyMod s hs 60]
  unfold format_timestamp_spec
  rw [hm, hsec, hh]
  rfl

/-- C6: for every nonnegative seconds value, `format_timestamp` produces
`HH:MM:SS` with `HH = floor(s/3600)` zero-padded to at least 2 digits (no
width cap), `MM = floor((s mod 3600)/60)` and `SS = floor(s mod 60)`
zero-padded to 2, truncating sub-second precision; in particular
`format_timestamp 3661 = "01:01:01"`, `format_timestamp 0 = "00:00:00"`
and `format_timestamp 7325 = "02:02:05"`. -/
theorem format_timestamp_matches_spec :
    (∀ s : ℚ, 0 ≤ s → format_timestamp s = format_timestamp_spec s) ∧
      format_timestamp 3661 = "01:01:01" ∧
      format_timestamp 0 = "00:00:00" ∧
      format_timestamp 7325 = "02:02:05" := by
  refine ⟨fun s hs => ?_, ?_, ?_, ?_⟩
  · rw [format_eq_fmtHMS s hs, spec_eq_fmtHMS s hs]
  · rw [format_eq_fmtHMS 3661 (by norm_num),
      show ⌊(3661 : ℚ)⌋₊ = 3661 by norm_num]
    decide
  · rw [format_eq_fmtHMS 0 le_rfl, show ⌊(0 : ℚ)⌋₊ = 0 by norm_num]
    decide
  · rw [format_eq_fmtHMS 7325 (by norm_num),
      show ⌊(7325 : ℚ)⌋₊ = 7325 by norm_num]
    decide

theorem format_timestamp_matches_spec_witness :
    (0 : ℚ) ≤ 90061 ∧ format_timestamp 90061 = format_timestamp_spec 90061 :=
  ⟨by norm_num, format_timestamp_matches_spec.1 90061 (by norm_num)⟩

/-! ## Parse-back of the formatted timestamp (C7) -/

/-- Split a character list at every `':'` (no colon is ever dropped). -/
def splitCols : List Char → List (List Char)
  | [] => [[]]
  | c :: rest =>
    if c = ':' then [] :: splitCols rest
    else
      match splitCols rest with
      | [] => [[c]]
      | l :: ls => (c :: l) :: ls

/-- Numeric value of a decimal digit character. -/
def charDigit (c : Char) : Nat := c.toNat - 48

/-- Value of a base-10 digit list, most significant digit first. -/
def valMSD : List Nat → Nat
  | [] => 0
  | d :: ds => d * 10 ^ ds.length + valMSD ds

/-- Modelled from the spec: `parse_back` reads an `HH:MM:SS` string and
returns `HH*3600 + MM*60 + SS` total seconds (the claim's parse formula);
it fails on anything that is not three colon-separated digit fields. -/
def parse_back (t : String) : Option Nat :=
  match splitCols t.data with
  | [hh, mm, ss] =>
    if hh ≠ [] ∧ mm ≠ [] ∧ ss ≠ [] ∧ (hh ++ mm ++ ss).all Char.isDigit then
      some (valMSD (hh.map charDigit) * 3600 + valMSD (mm.map charDigit) * 60
        + valMSD (ss.map charDigit))
    else none
  | _ => none

theorem splitCols_no_colon (a : List Char) (h : ':' ∉ a) :
    splitCols a = [a] := by
  induction a with
  | nil => rfl
  | cons c rest ih =>
    have hc : c ≠ ':' := fun hcc => h (by simp [hcc])
    have hrest := ih fun hm => h (List.mem_cons_of_mem c hm)
    simp only [splitCols]
    rw [if_neg hc, hrest]

theorem splitCols_ne_nil (a : List Char) : splitCols a ≠ [] := by
  cases a with
  | nil => simp [splitCols]
  | cons c rest =>
    simp only [splitCols]
    split
    · simp
    · split <;> simp

theorem splitCols_append (a b : List Char) (h : ':' ∉ a) :
    splitCols (a ++ ':' :: b) = a :: splitCols b := by
  induction a with
  | nil =>
    show splitCols (':' :: b) = [] :: splitCols b
    simp [splitCols]
  | cons c rest ih =>
    have hc : c ≠ ':' := fun hcc => h (by simp [hcc])
    have hrest := ih fun hm => h (List.mem_cons_of_mem c hm)
    show splitCols (c :: (rest ++ ':' :: b)) = (c :: rest) :: splitCols b
    simp only [splitCols]
    rw [if_neg hc, hrest]

/-! ## Decimal digits facts -/

theorem natDigitsAux_eq (fuel : Nat) :
    ∀ n : Nat, n ≤ fuel → natDigitsAux fuel n = Nat.digits 10 n := by
  induction fuel with
  | zero =>
    intro n hn
    interval_cases n
    simp [natDigitsAux]
  | succ fuel ih =>
    intro n hn
    cases n with
    | zero => simp [natDigitsAux]
    | succ n =>
      show (n + 1) % 10 :: natDigitsAux fuel ((n + 1) / 10) = _
      rw [Nat.digits_def' (by norm_num : (1:Nat) < 10) (Nat.succ_pos n)]
      rw [ih ((n + 1) / 10) (by omega)]

theorem natDigits_eq (n : Nat) : natDigits n = Nat.digits 10 n :=
  natDigitsAux_eq n n le_rfl

theorem natDigits_lt (n : Nat) : ∀ d ∈ natDigits n, d < 10 := by
  rw [natDigits_eq]
  exact fun d hd => Nat.digits_lt_base (by norm_num) hd

theorem valMSD_append_one (xs : List Nat) (d : Nat) :
    valMSD (xs ++ [d]) = 10 * valMSD xs + d := by
  induction xs with
  | nil => simp [valMSD]
  | cons x xs ih =>
    show x * 10 ^ (xs ++ [d]).length + valMSD (xs ++ [d]) = _
    rw [ih, List.length_append]
    show x * 10 ^ (xs.length + 1) + (10 * valMSD xs + d)
      = 10 * (x * 10 ^ xs.length + valMSD xs) + d
    rw [pow_succ]
    ring

theorem valMSD_reverse (l : List Nat) :
    valMSD l.reverse = Nat.ofDigits 10 l := by
  induction l with
  | nil => simp [valMSD]
  | cons d ds ih =>
    rw [List.reverse_cons, valMSD_append_one, ih, Nat.ofDigits_cons]
    omega

theorem digitChar_facts : ∀ d, d < 10 →
    (Nat.digitChar d).isDigit = true ∧ Nat.digitChar d ≠ ':' ∧
      Nat.digitChar d ≠ '\n' ∧ charDigit (Nat.digitChar d) = d := by decide

theorem natRepr_ne_nil (n : Nat) : natRepr n ≠ [] := by
  unfold natRepr
  split
  · simp
  · rename_i hn
    simp only [ne_eq, List.reverse_eq_nil_iff, List.map_eq_nil_iff]
    intro h
    have := natDigits_eq n
    rw [h] at this
    exact hn (Nat.digits_eq_nil_iff_eq_zero.mp this.symm)

theorem natRepr_chars (n : Nat) : ∀ c ∈ natRepr n,
    c.isDigit = true ∧ c ≠ ':' ∧ c ≠ '\n' := by
  intro c hc
  unfold natRepr at hc
  split at hc
  · rw [List.mem_singleton.mp hc]
    exact ⟨by decide, by decide, by decide⟩
  · rw [List.mem_reverse, List.mem_map] at hc
    obtain ⟨d, hd, rfl⟩ := hc
    have h10 := natDigits_lt n d hd
    exact ⟨(digitChar_facts d h10).1, (digitChar_facts d h10).2.1,
      (digitChar_facts d h10).2.2.1⟩

theorem natRepr_val (n : Nat) : valMSD ((natRepr n).map charDigit) = n := by
  unfold natRepr
  split
  · rename_i hn
    subst hn
    decide
  · rw [← List.map_reverse, List.map_map]
    have hmap : (natDigits n).map (charDigit ∘ Nat.digitChar)
        = (natDigits n).map id := by
      apply List.map_congr_left
      intro d hd
      exact (digitChar_facts d (natDigits_lt n d hd)).2.2.2
    rw [List.map_reverse, hmap, List.map_id, valMSD_reverse, natDigits_eq,
      Nat.ofDigits_digits]

theorem pad2_data (n : Nat) :
    (pad2 n).data = if n < 10 then '0' :: natRepr n else natRepr n := by
  unfold pad2 natToString
  split
  · rw [data_append]
    rfl
  · rfl

theorem pad2_ne_nil (n : Nat) : (pad2 n).data ≠ [] := by
  rw [pad2_data]
  split
  · simp
  · exact natRepr_ne_nil n

theorem pad2_chars (n : Nat) : ∀ c ∈ (pad2 n).data,
    c.isDigit = true ∧ c ≠ ':' ∧ c ≠ '\n' := by
  intro c hc
  rw [pad2_data] at hc
  split at hc
  · rcases List.mem_cons.mp hc with h | h
    · subst h
      exact ⟨by decide, by decide, by decide⟩
    · exact natRepr_chars n c h
  · exact natRepr_chars n c hc

theorem pad2_no_colon (n : Nat) : ':' ∉ (pad2 n).data := by
  intro h
  exact (pad2_chars n ':' h).2.1 rfl

theorem pad2_val (n : Nat) : valMSD ((pad2 n).data.map charDigit) = n := by
  rw [pad2_data]
  split
  · show valMSD (charDigit '0' :: (natRepr n).map charDigit) = n
    show charDigit '0' * 10 ^ ((natRepr n).map charDigit).length +
      valMSD ((natRepr n).map charDigit) = n
    rw [natRepr_val]
    show 0 * 10 ^ ((natRepr n).map charDigit).length + n = n
    ring
  · exact natRepr_val n

theorem parse_back_fmtHMS (t : Nat) : parse_back (fmtHMS t) = some t := by
  have hdata : (fmtHMS t).data = (pad2 (t / 3600)).data ++ ':' ::
      ((pad2 (t % 3600 / 60)).data ++ ':' :: (pad2 (t % 60)).data) := by
    show (pad2 (t / 3600) ++ ":" ++ pad2 (t % 3600 / 60) ++ ":"
      ++ pad2 (t % 60)).data = _
    simp [data_append]
  have hsplit : splitCols (fmtHMS t).data
      = [(pad2 (t / 3600)).data, (pad2 (t % 3600 / 60)).data,
         (pad2 (t % 60)).data] := by
    rw [hdata, splitCols_append _ _ (pad2_no_colon _),
      splitCols_append _ _ (pad2_no_colon _),
      splitCols_no_colon _ (pad2_no_colon _)]
  unfold parse_back
  rw [hsplit]
  show (if (pad2 (t / 3600)).data ≠ [] ∧ (pad2 (t % 3600 / 60)).data ≠ [] ∧
      (pad2 (t % 60)).data ≠ [] ∧
      ((pad2 (t / 3600)).data ++ (pad2 (t % 3600 / 60)).data
        ++ (pad2 (t % 60)).data).all Char.isDigit then _ else _) = _
  rw [if_pos]
  · rw [Option.some.injEq, pad2_val, pad2_val, pad2_val]
    omega
  · refine ⟨pad2_ne_nil _, pad2_ne_nil _, pad2_ne_nil _, ?_⟩
    rw [List.all_eq_true]
    intro c hc
    rcases List.mem_append.mp hc with h | h
    · rcases List.mem_append.mp h with h' | h'
      · exact (pad2_chars _ c h').1
      · exact (pad2_chars _ c h').1
    · exact (pad2_chars _ c h).1

/-- C7: timestamp round-trip: for every nonnegative seconds value `s`,
parsing `format_timestamp s` back as `HH*3600 + MM*60 + SS` reconstructs
`floor s` in total seconds. -/
theorem parse_back_format_timestamp (s : ℚ) (hs : 0 ≤ s) :
    parse_back (format_timestamp s) = some ⌊s⌋₊ := by
  rw [format_eq_fmtHMS s hs]
  exact parse_back_fmtHMS ⌊s⌋₊

theorem parse_back_format_timestamp_witness :
    (0 : ℚ) ≤ 14651 / 2 ∧
      parse_back (format_timestamp (14651 / 2)) = some ⌊(14651 / 2 : ℚ)⌋₊ :=
  ⟨by norm_num, parse_back_format_timestamp (14651 / 2) (by norm_num)⟩

/-! ## Lexicographic monotonicity of the formatted timestamp (C8) -/

/-- Base-10 digits of `n`, most significant first (`[0]` for zero). -/
def msdDigits (n : Nat) : List Nat :=
  if n = 0 then [0] else (natDigits n).reverse

/-- The digit list printed by `pad2 n`, most significant first. -/
def pad2Digits (n : Nat) : List Nat :=
  if n < 10 then 0 :: msdDigits n else msdDigits n

theorem natRepr_eq_msd (n : Nat) :
    natRepr n = (msdDigits n).map Nat.digitChar := by
  unfold natRepr msdDigits
  split
  · rfl
  · exact (List.map_reverse _ _).symm

theorem pad2_data_msd (n : Nat) :
    (pad2 n).data = (pad2Digits n).map Nat.digitChar := by
  rw [pad2_data]
  unfold pad2Digits
  split
  · rw [natRepr_eq_msd]
    rfl
  · exact natRepr_eq_msd n

theorem msdDigits_lt (n : Nat) : ∀ d ∈ msdDigits n, d < 10 := by
  unfold msdDigits
  split
  · simp
  · intro d hd
    exact natDigits_lt n d (List.mem_reverse.mp hd)

theorem pad2Digits_lt (n : Nat) : ∀ d ∈ pad2Digits n, d < 10 := by
  unfold pad2Digits
  split
  · intro d hd
    rcases List.mem_cons.mp hd with h | h
    · omega
    · exact msdDigits_lt n d h
  · exact msdDigits_lt n

theorem msdDigits_val (n : Nat) : valMSD (msdDigits n) = n := by
  unfold msdDigits
  split
  · rename_i h
    subst h
    decide
  · rw [valMSD_reverse, natDigits_eq, Nat.ofDigits_digits]

theorem pad2Digits_val (n : Nat) : valMSD (pad2Digits n) = n := by
  unfold pad2Digits
  split
  · show 0 * 10 ^ (msdDigits n).length + valMSD (msdDigits n) = n
    rw [msdDigits_val]
    ring
  · exact msdDigits_val n

theorem digits_single {n : Nat} (h1 : 0 < n) (h2 : n < 10) :
    Nat.digits 10 n = [n] := by
  rw [Nat.digits_def' (by norm_num : (1:Nat) < 10) h1, Nat.mod_eq_of_lt h2,
    Nat.div_eq_of_lt h2, Nat.digits_zero]

theorem msdDigits_len1 {n : Nat} (h : n < 10) : (msdDigits n).length = 1 := by
  unfold msdDigits
  split
  · rfl
  · rename_i hn
    rw [natDigits_eq, digits_single (Nat.pos_of_ne_zero hn) h]
    rfl

theorem msdDigits_len2 {n : Nat} (h1 : 10 ≤ n) (h2 : n < 100) :
    (msdDigits n).length = 2 := by
  unfold msdDigits
  rw [if_neg (by omega)]
  rw [natDigits_eq, Nat.digits_def' (by norm_num : (1:Nat) < 10) (by omega),
    digits_single (by omega) (by omega)]
  rfl

theorem pad2Digits_len2 {n : Nat} (h : n < 100) :
    (pad2Digits n).length = 2 := by
  unfold pad2Digits
  split
  · rename_i h10
    rw [List.length_cons, msdDigits_len1 h10]
  · rename_i h10
    exact msdDigits_len2 (by omega) h

theorem valMSD_lt_pow (ds : List Nat) (h : ∀ d ∈ ds, d < 10) :
    valMSD ds < 10 ^ ds.length := by
  induction ds with
  | nil => decide
  | cons d t ih =>
    have hd : d < 10 := h d (by simp)
    have ht := ih fun e he => h e (List.mem_cons_of_mem d he)
    show d * 10 ^ t.length + valMSD t < 10 ^ (t.length + 1)
    have hd9 : d ≤ 9 := by omega
    calc d * 10 ^ t.length + valMSD t
        < d * 10 ^ t.length + 10 ^ t.length := by omega
      _ ≤ 9 * 10 ^ t.length + 10 ^ t.length :=
          Nat.add_le_add_right (Nat.mul_le_mul_right _ hd9) _
      _ = 10 ^ (t.length + 1) := by ring

theorem digitChar_lt_of_lt : ∀ d, d < 10 → ∀ e, e < 10 → d < e →
    Nat.digitChar d < Nat.digitChar e := by decide

/-- Equal-length base-10 digit lists compare numerically exactly as their
printed forms compare lexicographically. -/
theorem digit_lex_of_le : ∀ (ds1 ds2 : List Nat),
    ds1.length = ds2.length → (∀ d ∈ ds1, d < 10) → (∀ d ∈ ds2, d < 10) →
    valMSD ds1 ≤ valMSD ds2 →
    ds1 = ds2 ∨ List.Lex (· < ·) (ds1.map Nat.digitChar)
      (ds2.map Nat.digitChar)
  | [], [], _, _, _, _ => Or.inl rfl
  | [], e :: t2, hlen, _, _, _ => by simp at hlen
  | d :: t1, [], hlen, _, _, _ => by simp at hlen
  | d :: t1, e :: t2, hlen, h1, h2, hle => by
    have hlen' : t1.length = t2.length := by simpa using hlen
    have hd : d < 10 := h1 d (by simp)
    have he : e < 10 := h2 e (by simp)
    have hv1 : valMSD (d :: t1) = d * 10 ^ t1.length + valMSD t1 := rfl
    have hv2 : valMSD (e :: t2) = e * 10 ^ t2.length + valMSD t2 := rfl
    rcases Nat.lt_trichotomy d e with hde | hde | hde
    · exact Or.inr (List.Lex.rel (digitChar_lt_of_lt d hd e he hde))
    · subst hde
      have htle : valMSD t1 ≤ valMSD t2 := by
        rw [hv1, hv2, hlen'] at hle
        omega
      rcases digit_lex_of_le t1 t2 hlen'
          (fun x hx => h1 x (List.mem_cons_of_mem d hx))
          (fun x hx => h2 x (List.mem_cons_of_mem d hx)) htle with h | h
      · exact Or.inl (by rw [h])
      · exact Or.inr (List.Lex.cons h)
    · exfalso
      have hb2 := valMSD_lt_pow t2 fun x hx => h2 x (List.mem_cons_of_mem e hx)
      have : valMSD (e :: t2) < valMSD (d :: t1) := by
        rw [hv1, hv2, hlen']
        have he1 : e + 1 ≤ d := hde
        have step : (e + 1) * 10 ^ t2.length ≤ d * 10 ^ t2.length :=
          Nat.mul_le_mul_right _ he1
        have : e * 10 ^ t2.length + valMSD t2 < (e + 1) * 10 ^ t2.length := by
          have := hb2
          ring_nf
          ring_nf at this ⊢
          omega
        omega
      omega

theorem lex_append_left {α : Type} {r : α → α → Prop} {a1 a2 : List α}
    (h : List.Lex r a1 a2) (hlen : a1.length = a2.length)
    (b1 b2 : List α) : List.Lex r (a1 ++ b1) (a2 ++ b2) := by
  induction h generalizing b1 b2 with
  | nil => simp at hlen
  | rel hr => exact List.Lex.rel hr
  | cons h ih =>
    exact List.Lex.cons (ih (by simpa using hlen) b1 b2)

theorem lex_append_same {α : Type} {r : α → α → Prop} (a : List α)
    {b1 b2 : List α} (h : List.Lex r b1 b2) :
    List.Lex r (a ++ b1) (a ++ b2) := by
  induction a with
  | nil => simpa using h
  | cons x a ih => exact List.Lex.cons ih

theorem or_lex_cons_shared {A R1 R2 : List Char}
    (h : R1 = R2 ∨ List.Lex (· < ·) R1 R2) :
    A ++ ':' :: R1 = A ++ ':' :: R2 ∨
      List.Lex (· < ·) (A ++ ':' :: R1) (A ++ ':' :: R2) := by
  rcases h with h | h
  · left
    rw [h]
  · right
    have := lex_append_same (A ++ [':']) h
    simpa [List.append_assoc] using this

/-- Comparison of two `pad2` renderings of equal printed width follows the
numeric order. -/
theorem pad2_cmp {a b : Nat} (hab : a ≤ b)
    (hlen : (pad2Digits a).length = (pad2Digits b).length) :
    (pad2 a).data = (pad2 b).data ∨
      List.Lex (· < ·) (pad2 a).data (pad2 b).data := by
  rw [pad2_data_msd, pad2_data_msd]
  rcases digit_lex_of_le (pad2Digits a) (pad2Digits b) hlen
      (pad2Digits_lt a) (pad2Digits_lt b)
      (by rw [pad2Digits_val, pad2Digits_val]; exact hab) with h | h
  · exact Or.inl (by rw [h])
  · exact Or.inr h

theorem pad2_eq_val {a b : Nat} (h : (pad2 a).data = (pad2 b).data) :
    a = b := by
  have := congrArg (fun l => valMSD (l.map charDigit)) h
  simpa [pad2_val] using this

theorem fmtHMS_data (t : Nat) : (fmtHMS t).data = (pad2 (t / 3600)).data
    ++ ':' :: ((pad2 (t % 3600 / 60)).data ++ ':' :: (pad2 (t % 60)).data) := by
  show (pad2 (t / 3600) ++ ":" ++ pad2 (t % 3600 / 60) ++ ":"
    ++ pad2 (t % 60)).data = _
  simp [data_append]

theorem pad2_data_length (n : Nat) :
    (pad2 n).data.length = (pad2Digits n).length := by
  rw [pad2_data_msd, List.length_map]

theorem fmtHMS_length (t : Nat) :
    (fmtHMS t).length = (pad2Digits (t / 3600)).length + 6 := by
  show (fmtHMS t).data.length = _
  rw [fmtHMS_data]
  simp only [List.length_append, List.length_cons, pad2_data_length]
  rw [pad2Digits_len2 (by omega : t % 3600 / 60 < 100),
    pad2Digits_len2 (by omega : t % 60 < 100)]

theorem fmtHMS_le_of_le (t1 t2 : Nat) (hle : t1 ≤ t2)
    (hw : (fmtHMS t1).length = (fmtHMS t2).length) :
    fmtHMS t1 ≤ fmtHMS t2 := by
  have hwh : (pad2Digits (t1 / 3600)).length
      = (pad2Digits (t2 / 3600)).length := by
    have e1 := fmtHMS_length t1
    have e2 := fmtHMS_length t2
    omega
  have hh : t1 / 3600 ≤ t2 / 3600 := Nat.div_le_div_right hle
  have hD : (fmtHMS t1).data = (fmtHMS t2).data ∨
      List.Lex (· < ·) (fmtHMS t1).data (fmtHMS t2).data := by
    rw [fmtHMS_data, fmtHMS_data]
    rcases pad2_cmp hh hwh with heqh | hlexh
    · have hvh : t1 / 3600 = t2 / 3600 := pad2_eq_val heqh
      rw [heqh]
      have hm : t1 % 3600 / 60 ≤ t2 % 3600 / 60 := by omega
      have hwm : (pad2Digits (t1 % 3600 / 60)).length
          = (pad2Digits (t2 % 3600 / 60)).length := by
        rw [pad2Digits_len2 (by omega : t1 % 3600 / 60 < 100),
          pad2Digits_len2 (by omega : t2 % 3600 / 60 < 100)]
      rcases pad2_cmp hm hwm with heqm | hlexm
      · have hvm : t1 % 3600 / 60 = t2 % 3600 / 60 := pad2_eq_val heqm
        rw [heqm]
        have hs : t1 % 60 ≤ t2 % 60 := by omega
        have hws : (pad2Digits (t1 % 60)).length
            = (pad2Digits (t2 % 60)).length := by
          rw [pad2Digits_len2 (by omega : t1 % 60 < 100),
            pad2Digits_len2 (by omega : t2 % 60 < 100)]
        exact or_lex_cons_shared (or_lex_cons_shared (pad2_cmp hs hws))
      · refine or_lex_cons_shared (Or.inr ?_)
        refine lex_append_left hlexm ?_ _ _
        rw [pad2_data_length, pad2_data_length, hwm]
    · refine Or.inr ?_
      refine lex_append_left hlexh ?_ _ _
      rw [pad2_data_length, pad2_data_length, hwh]
  rcases hD with h | h
  · exact le_of_eq (String.ext h)
  · have hlt : fmtHMS t1 < fmtHMS t2 := by
      rw [String.lt_iff_toList_lt]
      exact h
    exact le_of_lt hlt

/-- C8: `format_timestamp` is deterministic, and for nonnegative
`s1 ≤ s2` whose formatted outputs have the same width (equivalently, the
same hour-digit width, since minutes and seconds are always 2 digits),
`format_timestamp s1 ≤ format_timestamp s2` in the lexicographic string
order. -/
theorem format_timestamp_lex_mono :
    (∀ s1 s2 : ℚ, s1 = s2 → format_timestamp s1 = format_timestamp s2) ∧
      ∀ s1 s2 : ℚ, 0 ≤ s1 → s1 ≤ s2 →
        (format_timestamp s1).length = (format_timestamp s2).length →
        format_timestamp s1 ≤ format_timestamp s2 := by
  refine ⟨fun s1 s2 h => by rw [h], fun s1 s2 h0 hle hw => ?_⟩
  have h0' : (0 : ℚ) ≤ s2 := le_trans h0 hle
  rw [format_eq_fmtHMS s1 h0, format_eq_fmtHMS s2 h0'] at hw ⊢
  exact fmtHMS_le_of_le _ _ (Nat.floor_le_floor hle) hw

theorem format_timestamp_lex_mono_witness :
    (0 : ℚ) ≤ 3661 ∧ (3661 : ℚ) ≤ 7325 ∧
      (format_timestamp 3661).length = (format_timestamp 7325).length ∧
      format_timestamp 3661 ≤ format_timestamp 7325 := by
  have hlen : (format_timestamp 3661).length
      = (format_timestamp 7325).length := by
    rw [format_eq_fmtHMS 3661 (by norm_num), format_eq_fmtHMS 7325 (by norm_num),
      show ⌊(3661 : ℚ)⌋₊ = 3661 by norm_num,
      show ⌊(7325 : ℚ)⌋₊ = 7325 by norm_num]
    decide
  exact ⟨by norm_num, by norm_num, hlen,
    format_timestamp_lex_mono.2 3661 7325 (by norm_num) (by norm_num) hlen⟩

/-! ## Transcript rendering and the chunked pipeline
(src/summarizer.py lines 112-170) -/

/-- A timestamped caption entry (`{"start_time": ..., "end_time": ...,
"text": ...}` as produced by `fetch_transcript_with_timestamps`). -/
structure CaptionEntry where
  start_time : ℚ
  end_time : ℚ
  text : String

/-- One rendered transcript line, as built in
`summarize_with_chatgpt_chunked` (src/summarizer.py line 138):
`f"[{format_timestamp(e['start_time'])} - {format_timestamp(e['end_time'])}] {e['text']}"`. -/
def renderLine (e : CaptionEntry) : String :=
  "[" ++ format_timestamp e.start_time ++ " - " ++ format_timestamp e.end_time
    ++ "] " ++ e.text

/-- The formatted transcript (src/summarizer.py lines 137-140): rendered
lines joined with `"\n"`, in input order. -/
def renderTranscript (transcript : List CaptionEntry) : String :=
  pyJoin "\n" (transcript.map renderLine)

/-- A request to the chat-completion collaborator. -/
structure LLMRequest where
  model : String
  system_message : String
  user_message : String
  temperature : ℚ

/-- The external chat-completion collaborator: `.ok text` models a
successful response text, `.error msg` models a raised exception with
message `msg`. -/
def LLMOracle : Type := LLMRequest → Except String String

def chunk_system_msg : String := "You summarize YouTube subtitles with timestamps."

def chunk_user_prompt (subtitles_chunk : String) : String :=
  "You are a professional summarizer for YouTube videos. Below is a chunk of subtitles with timestamps. "
    ++ "Summarize the key points for this chunk while preserving the timestamps you see.\n\n"
    ++ subtitles_chunk ++ "\n\n"
    ++ "Output 5–10 concise bullet points, retaining timestamps where present."

/-- Embedding of `summarize_chunk_with_chatgpt(subtitles_chunk, ..., model)`
(src/summarizer.py lines 112-131): one completion request at temperature
0.2, returning the trimmed response text, or propagating the collaborator's
exception. -/
def summarize_chunk_with_chatgpt (llm : LLMOracle) (subtitles_chunk : String)
    (model : String) : Except String String :=
  (llm ⟨model, chunk_system_msg, chunk_user_prompt subtitles_chunk, 2 / 10⟩).map
    fun r => r.trim

def merge_system_msg : String :=
  "You merge multiple partial summaries into one coherent outline, keeping useful timestamps."

def merge_user_prompt (summaries : List String) : String :=
  "Merge the following partial summaries into one concise list of key events (10–15 bullets). "
    ++ "If multiple timestamps refer to the same idea, keep the earliest. Keep timestamps where present.\n\n"
    ++ pyJoin "\n\n---\n\n" summaries

/-- The `try`-body of `summarize_with_chatgpt_chunked` (src/summarizer.py
lines 135-168): render, chunk, summarize each chunk in order (stopping at
the first raised exception, as the Python list comprehension does), then
one merge call; the result is the trimmed merge response. -/
def summarize_chunked_attempt (llm : LLMOracle)
    (transcript : List CaptionEntry) (model : String) (max_chars : Int) :
    Except String String := do
  let formatted := renderTranscript transcript
  let chunks := chunk_text_by_chars formatted max_chars
  let summaries ← chunks.mapM fun ch => summarize_chunk_with_chatgpt llm ch model
  let resp ← llm ⟨model, merge_system_msg, merge_user_prompt summaries, 2 / 10⟩
  pure resp.trim

/-- Embedding of `summarize_with_chatgpt_chunked(...)`
(src/summarizer.py lines 134-170): the body runs under `try`; any raised
exception is caught and stringified as
`"Error during summarization (chunked): <message>"`. -/
def summarize_with_chatgpt_chunked (llm : LLMOracle)
    (transcript : List CaptionEntry) (model : String) (max_chars : Int) :
    String :=
  match summarize_chunked_attempt llm transcript model max_chars with
  | Except.ok s => s
  | Except.error e => "Error during summarization (chunked): " ++ e

theorem append_empty_str (s : String) : s ++ "" = s :=
  String.ext (by simp [data_append])

/-- C9: the renderer produces one line `"[start - end] text"` per entry,
joined by `"\n"` in input order, with the empty transcript rendering to the
empty string; the three-entry example renders to the specified string,
which a large `max_chars` leaves as exactly one chunk. -/
theorem renderTranscript_spec :
    renderTranscript [] = "" ∧
      (∀ e : CaptionEntry, renderTranscript [e] = renderLine e) ∧
      (∀ (e e2 : CaptionEntry) (ts : List CaptionEntry),
        renderTranscript (e :: e2 :: ts)
          = renderLine e ++ "\n" ++ renderTranscript (e2 :: ts)) ∧
      renderTranscript [⟨0, 2, "Hello"⟩, ⟨2, 5, "world"⟩, ⟨5, 9, "test"⟩]
        = "[00:00:00 - 00:00:02] Hello\n[00:00:02 - 00:00:05] world\n[00:00:05 - 00:00:09] test" ∧
      chunk_text_by_chars
        "[00:00:00 - 00:00:02] Hello\n[00:00:02 - 00:00:05] world\n[00:00:05 - 00:00:09] test"
        7000
        = ["[00:00:00 - 00:00:02] Hello\n[00:00:02 - 00:00:05] world\n[00:00:05 - 00:00:09] test"] := by
  have hts : ∀ n : Nat, format_timestamp (n : ℚ) = fmtHMS n := by
    intro n
    rw [format_eq_fmtHMS (n : ℚ) (Nat.cast_nonneg n), Nat.floor_natCast]
  refine ⟨rfl, fun e => rfl, ?_, ?_, ?_⟩
  · intro e e2 ts
    show pyJoin "\n" (renderLine e :: renderLine e2 :: (ts.map renderLine))
      = _
    rw [pyJoin_cons_cons]
    rfl
  · show pyJoin "\n" [renderLine ⟨0, 2, "Hello"⟩, renderLine ⟨2, 5, "world"⟩,
      renderLine ⟨5, 9, "test"⟩] = _
    unfold renderLine
    have h0 := hts 0
    have h2 := hts 2
    have h5 := hts 5
    have h9 := hts 9
    norm_num at h0 h2 h5 h9
    simp only [h0, h2, h5, h9]
    decide
  · decide

/-- C4 (counterexample): a pipeline run in which the first chunk
summarization call raises is caught and stringified: the pipeline returns
the plain string `"Error during summarization (chunked): boom"`, not a
typed error result. -/
theorem chunked_error_counterexample :
    summarize_with_chatgpt_chunked (fun _ => Except.error "boom") []
      "gpt-3.5-turbo" 7000 = "Error during summarization (chunked): boom" := by
  decide

/-- C4 (amended): when any stage of the chunked pipeline fails, the
`try/except` catches the first raised exception and
`summarize_with_chatgpt_chunked` returns the generic string
`"Error during summarization (chunked): <message>"` — a plain string, not
a typed inspectable error; no partial summary output is returned. -/
theorem chunked_pipeline_error_string (llm : LLMOracle)
    (transcript : List CaptionEntry) (model : String) (max_chars : Int)
    (e : String)
    (h : summarize_chunked_attempt llm transcript model max_chars
      = Except.error e) :
    summarize_with_chatgpt_chunked llm transcript model max_chars
      = "Error during summarization (chunked): " ++ e := by
  unfold summarize_with_chatgpt_chunked
  rw [h]

theorem chunked_pipeline_error_string_witness :
    summarize_chunked_attempt (fun _ => Except.error "nope")
        [] "gpt-3.5-turbo" 7000 = Except.error "nope" ∧
      summarize_with_chatgpt_chunked (fun _ => Except.error "nope")
        [] "gpt-3.5-turbo" 7000
        = "Error during summarization (chunked): " ++ "nope" :=
  ⟨rfl, chunked_pipeline_error_string (fun _ => Except.error "nope")
    [] "gpt-3.5-turbo" 7000 "nope" rfl⟩
